import Mathlib

/-!
Verification of the condition-merge, executor-authorization and applied-resource
garbage-collection core of the manifest-work agent (packages `pkg/helper`,
`pkg/spoke/helper` and `pkg/spoke/auth` of the repository), as a shallow
embedding: the Go functions are translated into executable Lean definitions and
the specified properties are proved or refuted about them.

Modelling conventions:
* Kubernetes `metav1.Time` is modelled as `Nat`; `0` plays the role of the zero
  (unset) time value, matching `Time.IsZero()`.
* Go maps keyed by `ManifestResourceMeta` are modelled as association lists
  whose insert replaces an existing key, matching Go map semantics.
* I/O clients (SubjectAccessReview creation, impersonated dry-run create,
  dynamic get/delete/patch) are modelled as deterministic oracles supplied as
  inputs, and the calls the code issues are collected in explicit traces.
-/

namespace WorkVerify

/-! ## Data model: status conditions (`metav1.Condition`) -/

/-- `metav1.Condition` — {name, status, reason, message, observed generation,
last-transition timestamp}. -/
structure Condition where
  type : String
  status : String
  reason : String
  message : String
  observedGeneration : Int
  lastTransitionTime : Nat
deriving DecidableEq, Repr

/-- In-place update of a found condition by `meta.SetStatusCondition`
(k8s.io/apimachinery, called from `MergeStatusConditions` in
`pkg/helper/helpers.go`): if the status differs, take the new status and the
new timestamp (or `now` when the new timestamp is unset); reason, message and
observed generation are always taken from the new condition. The type is never
changed. -/
def updateExistingCondition (now : Nat) (existing newCondition : Condition) : Condition :=
  let c :=
    if existing.status ≠ newCondition.status then
      { existing with
        status := newCondition.status
        lastTransitionTime :=
          if newCondition.lastTransitionTime ≠ 0 then newCondition.lastTransitionTime else now }
    else existing
  { c with
    reason := newCondition.reason
    message := newCondition.message
    observedGeneration := newCondition.observedGeneration }

/-- `meta.SetStatusCondition` (k8s.io/apimachinery): find the first condition
with the same type and update it in place; when there is none, append the new
condition, stamping its transition time to `now` if unset. The Go
implementation uses `FindStatusCondition` (first match) plus pointer mutation;
this structural recursion is the same function. -/
def SetStatusCondition (now : Nat) : List Condition → Condition → List Condition
  | [], newCondition =>
      [{ newCondition with
          lastTransitionTime :=
            if newCondition.lastTransitionTime = 0 then now
            else newCondition.lastTransitionTime }]
  | c :: rest, newCondition =>
      if c.type = newCondition.type then updateExistingCondition now c newCondition :: rest
      else c :: SetStatusCondition now rest newCondition

/-- `MergeStatusConditions` (`pkg/helper/helpers.go`): start from the existing
conditions and fold every new condition in with `meta.SetStatusCondition`. -/
def MergeStatusConditions (now : Nat) (conditions newConditions : List Condition) :
    List Condition :=
  newConditions.foldl (SetStatusCondition now) conditions

/-! ## Data model: manifest conditions (`workapiv1.ManifestCondition`) -/

/-- `workapiv1.ManifestResourceMeta` — ordinal plus
group/version/kind/resource/name/namespace (`ns` here, `namespace` being a Lean
keyword). -/
structure ManifestResourceMeta where
  ordinal : Int
  group : String
  version : String
  kind : String
  resource : String
  name : String
  ns : String
deriving DecidableEq, Repr

/-- The Go zero value `workapiv1.ManifestResourceMeta{}`. -/
def ManifestResourceMeta.empty : ManifestResourceMeta :=
  { ordinal := 0, group := "", version := "", kind := "", resource := "", name := "", ns := "" }

/-- `resetOrdinal` (`pkg/helper/helpers.go`): the identity-without-ordinal key
(ordinal reset to the zero value). -/
def resetOrdinal (meta : ManifestResourceMeta) : ManifestResourceMeta :=
  { ordinal := 0, group := meta.group, version := meta.version, kind := meta.kind,
    resource := meta.resource, name := meta.name, ns := meta.ns }

/-- `workapiv1.ManifestCondition` — resource identity, opaque status-feedback
values (modelled as an opaque list of strings, preserved verbatim), and the
ordered condition list. -/
structure ManifestCondition where
  resourceMeta : ManifestResourceMeta
  statusFeedbacks : List String
  conditions : List Condition
deriving DecidableEq, Repr

/-! ## Association-list model of the Go lookup maps -/

abbrev MetaMap := List (ManifestResourceMeta × ManifestCondition)

/-- Go map read `m[k]`. -/
def mapLookup : MetaMap → ManifestResourceMeta → Option ManifestCondition
  | [], _ => none
  | p :: rest, k => if p.1 = k then some p.2 else mapLookup rest k

/-- Go map membership test `_, ok := m[k]`. -/
def mapContains (m : MetaMap) (k : ManifestResourceMeta) : Bool :=
  (mapLookup m k).isSome

/-- Go map write `m[k] = v`: replace the entry for an existing key, otherwise
append. -/
def mapInsert : MetaMap → ManifestResourceMeta → ManifestCondition → MetaMap
  | [], k, v => [(k, v)]
  | p :: rest, k, v => if p.1 = k then (k, v) :: rest else p :: mapInsert rest k v

/-- Go map `delete(m, k)`. -/
def mapDelete : MetaMap → ManifestResourceMeta → MetaMap
  | [], _ => []
  | p :: rest, k => if p.1 = k then mapDelete rest k else p :: mapDelete rest k

/-- State of the index-building loop of `MergeManifestConditions`. -/
structure MergeIndices where
  metaIndex : MetaMap
  metaWithoutOrdinalIndex : MetaMap
  duplicated : List ManifestResourceMeta

/-- One iteration of the index-building loop of `MergeManifestConditions`
(`pkg/helper/helpers.go`, lines 53-62). -/
def buildIndicesStep (acc : MergeIndices) (condition : ManifestCondition) : MergeIndices :=
  let acc := { acc with metaIndex := mapInsert acc.metaIndex condition.resourceMeta condition }
  let metaWithoutOrdinal := resetOrdinal condition.resourceMeta
  if metaWithoutOrdinal ≠ ManifestResourceMeta.empty then
    if mapContains acc.metaWithoutOrdinalIndex metaWithoutOrdinal then
      { acc with duplicated := acc.duplicated ++ [metaWithoutOrdinal] }
    else
      { acc with
        metaWithoutOrdinalIndex :=
          mapInsert acc.metaWithoutOrdinalIndex metaWithoutOrdinal condition }
  else acc

/-- The two lookup indices (and the collision list) built over the existing
conditions. -/
def buildIndices (conditions : List ManifestCondition) : MergeIndices :=
  conditions.foldl buildIndicesStep ⟨[], [], []⟩

/-- `mergeManifestCondition` (`pkg/helper/helpers.go`): identity and ordinal
from the new condition, status feedbacks kept from the existing one,
conditions merged. -/
def mergeManifestCondition (now : Nat) (condition newCondition : ManifestCondition) :
    ManifestCondition :=
  { resourceMeta := newCondition.resourceMeta
    statusFeedbacks := condition.statusFeedbacks
    conditions := MergeStatusConditions now condition.conditions newCondition.conditions }

/-- `MergeManifestConditions` (`pkg/helper/helpers.go`): build the two indices
over the existing conditions, drop ambiguous identity-without-ordinal keys,
then for each new condition match exactly, then without ordinal, and otherwise
keep it as brand-new with every transition time stamped to `now`. -/
def MergeManifestConditions (now : Nat) (conditions newConditions : List ManifestCondition) :
    List ManifestCondition :=
  let indices := buildIndices conditions
  let metaWithoutOrdinalIndex := indices.duplicated.foldl mapDelete indices.metaWithoutOrdinalIndex
  newConditions.map fun newCondition =>
    match mapLookup indices.metaIndex newCondition.resourceMeta with
    | some condition => mergeManifestCondition now condition newCondition
    | none =>
      match mapLookup metaWithoutOrdinalIndex (resetOrdinal newCondition.resourceMeta) with
      | some condition => mergeManifestCondition now condition newCondition
      | none =>
        { newCondition with
          conditions := newCondition.conditions.map fun c => { c with lastTransitionTime := now } }

/-! ## Names and lookups over condition lists -/

/-- `meta.FindStatusCondition` (k8s.io/apimachinery): first condition with the
given type. -/
def FindStatusCondition (conditions : List Condition) (conditionType : String) :
    Option Condition :=
  conditions.find? (fun c => decide (c.type = conditionType))

/-- Some condition with the given name is present in the list. -/
def hasConditionType (l : List Condition) (t : String) : Prop :=
  ∃ c ∈ l, c.type = t

instance (l : List Condition) (t : String) : Decidable (hasConditionType l t) := by
  unfold hasConditionType; infer_instance

@[simp] theorem updateExistingCondition_type (now : Nat) (c nc : Condition) :
    (updateExistingCondition now c nc).type = c.type := by
  unfold updateExistingCondition
  split <;> rfl

@[simp] theorem updateExistingCondition_same_status (now : Nat) (c nc : Condition)
    (h : nc.status = c.status) :
    (updateExistingCondition now c nc).status = c.status ∧
      (updateExistingCondition now c nc).lastTransitionTime = c.lastTransitionTime := by
  unfold updateExistingCondition
  rw [if_neg (by simp [h])]
  exact ⟨rfl, rfl⟩

theorem hasConditionType_setStatusCondition (now : Nat) (l : List Condition)
    (nc : Condition) (t : String) :
    hasConditionType (SetStatusCondition now l nc) t ↔ hasConditionType l t ∨ nc.type = t := by
  induction l with
  | nil => simp [SetStatusCondition, hasConditionType]
  | cons c rest ih =>
    by_cases h : c.type = nc.type
    · simp only [SetStatusCondition, if_pos h, hasConditionType, List.mem_cons]
      constructor
      · rintro ⟨d, hd | hd, hdt⟩
        · left; exact ⟨c, Or.inl rfl, by rw [hd] at hdt; simpa using hdt⟩
        · exact Or.inl ⟨d, Or.inr hd, hdt⟩
      · rintro (⟨d, hd | hd, hdt⟩ | hnt)
        · exact ⟨updateExistingCondition now c nc, Or.inl rfl, by simp [hd ▸ hdt]⟩
        · exact ⟨d, Or.inr hd, hdt⟩
        · exact ⟨updateExistingCondition now c nc, Or.inl rfl, by simp [h, hnt]⟩
    · simp only [SetStatusCondition, if_neg h, hasConditionType, List.mem_cons] at *
      constructor
      · rintro ⟨d, hd | hd, hdt⟩
        · exact Or.inl ⟨d, Or.inl hd, hdt⟩
        · rcases (ih.mp ⟨d, hd, hdt⟩) with ⟨d', hd', hdt'⟩ | hnt
          · exact Or.inl ⟨d', Or.inr hd', hdt'⟩
          · exact Or.inr hnt
      · rintro (⟨d, hd | hd, hdt⟩ | hnt)
        · exact ⟨d, Or.inl hd, hdt⟩
        · rcases ih.mpr (Or.inl ⟨d, hd, hdt⟩) with ⟨d', hd', hdt'⟩
          exact ⟨d', Or.inr hd', hdt'⟩
        · rcases ih.mpr (Or.inr hnt) with ⟨d', hd', hdt'⟩
          exact ⟨d', Or.inr hd', hdt'⟩

theorem hasConditionType_mergeStatusConditions (now : Nat) (ex fr : List Condition)
    (t : String) :
    hasConditionType (MergeStatusConditions now ex fr) t ↔
      hasConditionType ex t ∨ hasConditionType fr t := by
  induction fr generalizing ex with
  | nil => simp [MergeStatusConditions, hasConditionType]
  | cons g gs ih =>
    have step : MergeStatusConditions now ex (g :: gs) =
        MergeStatusConditions now (SetStatusCondition now ex g) gs := rfl
    rw [step, ih, hasConditionType_setStatusCondition]
    simp only [hasConditionType, List.mem_cons]
    constructor
    · rintro ((hex | hgt) | hgs)
      · exact Or.inl hex
      · exact Or.inr ⟨g, Or.inl rfl, hgt⟩
      · rcases hgs with ⟨d, hd, hdt⟩
        exact Or.inr ⟨d, Or.inr hd, hdt⟩
    · rintro (hex | ⟨d, hd | hd, hdt⟩)
      · exact Or.inl (Or.inl hex)
      · exact Or.inl (Or.inr (hd ▸ hdt))
      · exact Or.inr ⟨d, hd, hdt⟩

theorem findStatusCondition_setStatusCondition_ne (now : Nat) (l : List Condition)
    (nc : Condition) (t : String) (h : nc.type ≠ t) :
    FindStatusCondition (SetStatusCondition now l nc) t = FindStatusCondition l t := by
  induction l with
  | nil => simp [SetStatusCondition, FindStatusCondition, h]
  | cons c rest ih =>
    by_cases hc : c.type = nc.type
    · have hct : ¬ c.type = t := by rw [hc]; exact h
      simp only [SetStatusCondition, if_pos hc, FindStatusCondition]
      rw [List.find?_cons, List.find?_cons]
      simp [hct]
    · by_cases hct : c.type = t
      · simp only [SetStatusCondition, if_neg hc, FindStatusCondition]
        rw [List.find?_cons, List.find?_cons]
        simp [hct]
      · simp only [SetStatusCondition, if_neg hc]
        unfold FindStatusCondition at ih ⊢
        rw [List.find?_cons, List.find?_cons]
        simp [hct, ih]

theorem findStatusCondition_setStatusCondition_same_status (now : Nat) (l : List Condition)
    (nc e : Condition) (he : FindStatusCondition l nc.type = some e)
    (hst : nc.status = e.status) :
    ∃ e', FindStatusCondition (SetStatusCondition now l nc) nc.type = some e' ∧
      e'.lastTransitionTime = e.lastTransitionTime ∧ e'.status = e.status := by
  induction l with
  | nil => simp [FindStatusCondition] at he
  | cons c rest ih =>
    by_cases hc : c.type = nc.type
    · have hce : c = e := by
        simpa [FindStatusCondition, List.find?_cons, hc] using he
      subst hce
      refine ⟨updateExistingCondition now c nc, ?_, ?_⟩
      · simp [SetStatusCondition, if_pos hc, FindStatusCondition, List.find?_cons, hc]
      · obtain ⟨h1, h2⟩ := updateExistingCondition_same_status now c nc hst
        exact ⟨h2, h1⟩
    · have he' : FindStatusCondition rest nc.type = some e := by
        simpa [FindStatusCondition, List.find?_cons, hc] using he
      obtain ⟨e', h1, h2, h3⟩ := ih he'
      refine ⟨e', ?_, h2, h3⟩
      simpa [SetStatusCondition, if_neg hc, FindStatusCondition, List.find?_cons, hc] using h1

theorem mergeStatusConditions_stable_aux (now : Nat) (fr : List Condition) :
    ∀ (ex : List Condition) (e : Condition) (t : String),
      FindStatusCondition ex t = some e →
      (∀ f ∈ fr, f.type = t → f.status = e.status) →
      ∃ e', FindStatusCondition (MergeStatusConditions now ex fr) t = some e' ∧
        e'.lastTransitionTime = e.lastTransitionTime ∧ e'.status = e.status := by
  induction fr with
  | nil => exact fun ex e t he _ => ⟨e, he, rfl, rfl⟩
  | cons g gs ih =>
    intro ex e t he hfr
    have hstep : MergeStatusConditions now ex (g :: gs) =
        MergeStatusConditions now (SetStatusCondition now ex g) gs := rfl
    rw [hstep]
    by_cases hg : g.type = t
    · have hst : g.status = e.status := hfr g (by simp) hg
      obtain ⟨e₁, he₁, hltt₁, hstat₁⟩ :=
        findStatusCondition_setStatusCondition_same_status now ex g e (by rw [hg]; exact he) hst
      obtain ⟨e', he', hltt', hstat'⟩ :=
        ih (SetStatusCondition now ex g) e₁ t (hg ▸ he₁)
          (fun f hf hft => by rw [hstat₁]; exact hfr f (by simp [hf]) hft)
      exact ⟨e', he', by rw [hltt', hltt₁], by rw [hstat', hstat₁]⟩
    · have hpres := findStatusCondition_setStatusCondition_ne now ex g t hg
      exact ih (SetStatusCondition now ex g) e t (by rw [hpres]; exact he)
        (fun f hf hft => hfr f (by simp [hf]) hft)

/-- Builders mirroring `newCondition` and `newManifestCondition` of the Go
tests, used for concrete instances. -/
def mkCond (name status : String) (t : Nat) : Condition :=
  { type := name, status := status, reason := "my-reason", message := "my-message",
    observedGeneration := 0, lastTransitionTime := t }

def mkMC (ordinal : Int) (resource : String) (conds : List Condition) : ManifestCondition :=
  { resourceMeta :=
      { ordinal := ordinal, group := "", version := "", kind := "", resource := resource,
        name := "", ns := "" },
    statusFeedbacks := [], conditions := conds }

/-- C1 counterexample: for the matched pair of records with identical resource
meta, the existing condition name "two" is absent from the fresh record yet
appears in the merged output, so the merged condition list does not contain
exactly the fresh names. -/
theorem mergeManifestConditions_retains_stale_condition_name :
    ((MergeManifestConditions 5 [mkMC 0 "r1" [mkCond "two" "True" 3]]
        [mkMC 0 "r1" [mkCond "one" "True" 0]]).map fun r => r.conditions.map (·.type))
      = [["two", "one"]] ∧
    (mkMC 0 "r1" [mkCond "one" "True" 0]).conditions.map (·.type) = ["one"] := by decide

/-- C1 (amended): for a matched pair of existing and fresh records, the merged
record's condition list contains a condition name exactly when the name is
present in the existing record or in the fresh record — names present in the
existing record but absent from the fresh record are retained, not dropped. -/
theorem mergeManifestCondition_condition_names (now : Nat)
    (condition newCondition : ManifestCondition) (t : String) :
    hasConditionType (mergeManifestCondition now condition newCondition).conditions t ↔
      hasConditionType condition.conditions t ∨
        hasConditionType newCondition.conditions t :=
  hasConditionType_mergeStatusConditions now condition.conditions newCondition.conditions t

/-- C5: if a condition name is found in the existing list and every fresh
condition with that name carries the same status as the existing one (the
status does not flip), the merged output keeps the existing last-transition
timestamp for that name, never the fresh one. -/
theorem mergeStatusConditions_unchanged_status_keeps_timestamp (now : Nat)
    (ex fr : List Condition) (t : String) (e : Condition)
    (_hpresent : ∃ f ∈ fr, f.type = t)
    (he : FindStatusCondition ex t = some e)
    (hsame : ∀ f ∈ fr, f.type = t → f.status = e.status) :
    (FindStatusCondition (MergeStatusConditions now ex fr) t).map
        (fun c => c.lastTransitionTime) = some e.lastTransitionTime := by
  obtain ⟨e', he', hltt, _⟩ := mergeStatusConditions_stable_aux now fr ex e t he hsame
  rw [he']
  simpa using hltt

/-- Witness for C5 at a concrete input: existing condition "one" has timestamp
7, the fresh one has timestamp 0 and the same status, and the merged output
keeps 7. -/
theorem mergeStatusConditions_unchanged_status_keeps_timestamp_witness :
    (FindStatusCondition
        (MergeStatusConditions 99 [mkCond "one" "True" 7] [mkCond "one" "True" 0]) "one").map
          (fun c => c.lastTransitionTime) = some 7 :=
  mergeStatusConditions_unchanged_status_keeps_timestamp 99 [mkCond "one" "True" 7]
    [mkCond "one" "True" 0] "one" (mkCond "one" "True" 7) (by decide) (by decide) (by decide)

/-! ## Lemmas about the association-list map model -/

theorem mapLookup_insert_self (m : MetaMap) (k : ManifestResourceMeta) (v : ManifestCondition) :
    mapLookup (mapInsert m k v) k = some v := by
  induction m with
  | nil => simp [mapInsert, mapLookup]
  | cons p rest ih =>
    by_cases hp : p.1 = k
    · simp [mapInsert, hp, mapLookup]
    · simp [mapInsert, hp, mapLookup, ih]

theorem mapLookup_insert_ne (m : MetaMap) (k0 k : ManifestResourceMeta)
    (v : ManifestCondition) (h : k ≠ k0) :
    mapLookup (mapInsert m k0 v) k = mapLookup m k := by
  have h' : ¬ k0 = k := fun hh => h hh.symm
  induction m with
  | nil => simp [mapInsert, mapLookup, h']
  | cons p rest ih =>
    by_cases hp : p.1 = k0
    · have hpk : ¬ p.1 = k := by rw [hp]; exact h'
      simp only [mapInsert, if_pos hp, mapLookup, if_neg hpk, if_neg h']
    · simp only [mapInsert, if_neg hp, mapLookup]
      by_cases hpk : p.1 = k
      · simp only [if_pos hpk]
      · simp only [if_neg hpk, ih]

theorem mapContains_insert_self (m : MetaMap) (k : ManifestResourceMeta)
    (v : ManifestCondition) : mapContains (mapInsert m k v) k = true := by
  simp [mapContains, mapLookup_insert_self]

theorem mapContains_insert_of (m : MetaMap) (k0 k : ManifestResourceMeta)
    (v : ManifestCondition) (h : mapContains m k = true) :
    mapContains (mapInsert m k0 v) k = true := by
  by_cases hk : k = k0
  · subst hk; exact mapContains_insert_self m k v
  · rw [mapContains, mapLookup_insert_ne m k0 k v hk]; exact h

theorem mapLookup_delete_self (m : MetaMap) (k : ManifestResourceMeta) :
    mapLookup (mapDelete m k) k = none := by
  induction m with
  | nil => simp [mapDelete, mapLookup]
  | cons p rest ih =>
    by_cases hp : p.1 = k
    · simpa [mapDelete, hp] using ih
    · simp [mapDelete, hp, mapLookup, ih]

theorem mapLookup_delete_none (m : MetaMap) (d k : ManifestResourceMeta)
    (h : mapLookup m k = none) : mapLookup (mapDelete m d) k = none := by
  induction m with
  | nil => simpa [mapDelete] using h
  | cons p rest ih =>
    by_cases hp : p.1 = k
    · simp [mapLookup, hp] at h
    · simp only [mapLookup, if_neg hp] at h
      by_cases hd : p.1 = d
      · simpa [mapDelete, hd] using ih h
      · simp [mapDelete, hd, mapLookup, hp, ih h]

theorem mapLookup_foldl_delete_none (ds : List ManifestResourceMeta) :
    ∀ m : MetaMap, ∀ k, mapLookup m k = none →
      mapLookup (ds.foldl mapDelete m) k = none := by
  induction ds with
  | nil => exact fun m k h => h
  | cons d rest ih =>
    exact fun m k h => ih (mapDelete m d) k (mapLookup_delete_none m d k h)

theorem mapLookup_foldl_delete_mem (ds : List ManifestResourceMeta) :
    ∀ m : MetaMap, ∀ k ∈ ds, mapLookup (ds.foldl mapDelete m) k = none := by
  induction ds with
  | nil => simp
  | cons d rest ih =>
    intro m k hk
    rcases List.mem_cons.mp hk with hk | hk
    · subst hk
      exact mapLookup_foldl_delete_none rest (mapDelete m k) k (mapLookup_delete_self m k)
    · exact ih (mapDelete m d) k hk

/-! ## The ambiguous-key collision logic of MergeManifestConditions -/

/-- Number of records in `l` whose identity-without-ordinal equals `k`. -/
def countKey (l : List ManifestCondition) (k : ManifestResourceMeta) : Nat :=
  (l.filter fun c => decide (resetOrdinal c.resourceMeta = k)).length

/-- Invariant of the index-building loop over a processed prefix `p`: any
non-empty ordinal-free key seen at least once is in the ordinal-free index or
recorded as duplicated, and any key seen at least twice is recorded as
duplicated. -/
def IndicesInv (p : List ManifestCondition) (st : MergeIndices) : Prop :=
  ∀ k, k ≠ ManifestResourceMeta.empty →
    (1 ≤ countKey p k →
      (mapContains st.metaWithoutOrdinalIndex k = true ∨ k ∈ st.duplicated)) ∧
    (2 ≤ countKey p k → k ∈ st.duplicated)

theorem countKey_append (p q : List ManifestCondition) (k : ManifestResourceMeta) :
    countKey (p ++ q) k = countKey p k + countKey q k := by
  simp [countKey, List.filter_append]

theorem countKey_single (c : ManifestCondition) (k : ManifestResourceMeta) :
    countKey [c] k = if resetOrdinal c.resourceMeta = k then 1 else 0 := by
  simp only [countKey, List.filter_cons, List.filter_nil]
  split
  · simp_all
  · simp_all

theorem buildIndicesStep_metaIndex (st : MergeIndices) (c : ManifestCondition) :
    (buildIndicesStep st c).metaIndex = mapInsert st.metaIndex c.resourceMeta c := by
  unfold buildIndicesStep
  dsimp only
  split
  · split <;> rfl
  · rfl

theorem buildIndicesStep_inv (p : List ManifestCondition) (st : MergeIndices)
    (c : ManifestCondition) (h : IndicesInv p st) :
    IndicesInv (p ++ [c]) (buildIndicesStep st c) := by
  intro k hk
  obtain ⟨h1, h2⟩ := h k hk
  have hcnt : countKey (p ++ [c]) k =
      countKey p k + (if resetOrdinal c.resourceMeta = k then 1 else 0) := by
    rw [countKey_append, countKey_single]
  by_cases hk0e : resetOrdinal c.resourceMeta = ManifestResourceMeta.empty
  · -- empty ordinal-free key: the ordinal-free index and duplicated list are untouched
    have hkk : ¬ resetOrdinal c.resourceMeta = k := by rw [hk0e]; exact fun hh => hk hh.symm
    have hstep : (buildIndicesStep st c).metaWithoutOrdinalIndex = st.metaWithoutOrdinalIndex ∧
        (buildIndicesStep st c).duplicated = st.duplicated := by
      unfold buildIndicesStep
      dsimp only
      rw [if_neg (by simpa using hk0e)]
      exact ⟨rfl, rfl⟩
    rw [hstep.1, hstep.2, ]
    rw [hcnt, if_neg hkk]
    simpa using ⟨h1, h2⟩
  · by_cases hcont : mapContains st.metaWithoutOrdinalIndex (resetOrdinal c.resourceMeta) = true
    · -- collision: the key is appended to the duplicated list
      have hstep : (buildIndicesStep st c).metaWithoutOrdinalIndex = st.metaWithoutOrdinalIndex ∧
          (buildIndicesStep st c).duplicated =
            st.duplicated ++ [resetOrdinal c.resourceMeta] := by
        unfold buildIndicesStep
        dsimp only
        rw [if_pos (by simpa using hk0e), if_pos hcont]
        exact ⟨rfl, rfl⟩
      rw [hstep.1, hstep.2, hcnt]
      by_cases hkk : resetOrdinal c.resourceMeta = k
      · constructor
        · intro _; right; rw [← hkk]; simp
        · intro _; rw [← hkk]; simp
      · rw [if_neg hkk]
        constructor
        · intro hc1
          rcases h1 (by omega) with hmw | hdup
          · exact Or.inl hmw
          · exact Or.inr (by simp [hdup])
        · intro hc2
          exact List.mem_append_left _ (h2 (by omega))
    · -- first sight: the key is inserted into the ordinal-free index
      have hstep : (buildIndicesStep st c).metaWithoutOrdinalIndex =
          mapInsert st.metaWithoutOrdinalIndex (resetOrdinal c.resourceMeta) c ∧
          (buildIndicesStep st c).duplicated = st.duplicated := by
        unfold buildIndicesStep
        dsimp only
        rw [if_pos (by simpa using hk0e), if_neg hcont]
        exact ⟨rfl, rfl⟩
      rw [hstep.1, hstep.2, hcnt]
      by_cases hkk : resetOrdinal c.resourceMeta = k
      · constructor
        · intro _
          exact Or.inl (by rw [← hkk]; exact mapContains_insert_self _ _ _)
        · intro hc2
          -- the key was already seen at least once, contradicting hcont
          rw [if_pos hkk] at hc2
          rcases h1 (by omega) with hmw | hdup
          · rw [← hkk] at hmw
            exact absurd hmw hcont
          · exact hdup
      · rw [if_neg hkk]
        constructor
        · intro hc1
          rcases h1 (by omega) with hmw | hdup
          · exact Or.inl (mapContains_insert_of _ _ _ _ hmw)
          · exact Or.inr hdup
        · intro hc2
          exact h2 (by omega)

theorem buildIndices_inv_aux (l : List ManifestCondition) :
    ∀ (p : List ManifestCondition) (st : MergeIndices), IndicesInv p st →
      IndicesInv (p ++ l) (l.foldl buildIndicesStep st) := by
  induction l with
  | nil => intro p st h; simpa using h
  | cons c rest ih =>
    intro p st h
    have h1 := buildIndicesStep_inv p st c h
    have h2 := ih (p ++ [c]) (buildIndicesStep st c) h1
    simpa using h2

theorem buildIndices_duplicated (conditions : List ManifestCondition)
    (k : ManifestResourceMeta) (hk : k ≠ ManifestResourceMeta.empty)
    (h2 : 2 ≤ countKey conditions k) :
    k ∈ (buildIndices conditions).duplicated := by
  have hinit : IndicesInv [] ⟨[], [], []⟩ := by
    intro k hk
    constructor <;> intro hc <;> simp [countKey] at hc
  have hall := buildIndices_inv_aux conditions [] ⟨[], [], []⟩ hinit
  rw [List.nil_append] at hall
  exact (hall k hk).2 h2

theorem buildIndices_metaIndex_none (conditions : List ManifestCondition)
    (k : ManifestResourceMeta) (h : ∀ c ∈ conditions, c.resourceMeta ≠ k) :
    mapLookup (buildIndices conditions).metaIndex k = none := by
  have aux : ∀ (l : List ManifestCondition) (st : MergeIndices),
      (∀ c ∈ l, c.resourceMeta ≠ k) → mapLookup st.metaIndex k = none →
      mapLookup (l.foldl buildIndicesStep st).metaIndex k = none := by
    intro l
    induction l with
    | nil => intro st _ h0; simpa using h0
    | cons c rest ih =>
      intro st hl h0
      have hckn : k ≠ c.resourceMeta := fun hh => hl c (by simp) hh.symm
      have hstep : mapLookup (buildIndicesStep st c).metaIndex k = none := by
        rw [buildIndicesStep_metaIndex, mapLookup_insert_ne _ _ _ _ hckn]
        exact h0
      exact ih (buildIndicesStep st c) (fun d hd => hl d (by simp [hd])) hstep
  exact aux conditions ⟨[], [], []⟩ h rfl

/-- C6: if two existing records collide on their (non-empty)
identity-without-ordinal key, a fresh record that matches no existing record
exactly and whose identity-without-ordinal equals the shared key is treated as
brand-new — its output record is the fresh record with every condition
timestamp stamped to now — rather than merged with either colliding record. -/
theorem mergeManifestConditions_ambiguous_key_unmatched (now : Nat)
    (l1 l2 l3 fresh : List ManifestCondition) (a b n : ManifestCondition) (i : Nat)
    (hkey : resetOrdinal a.resourceMeta = resetOrdinal b.resourceMeta)
    (hne : resetOrdinal a.resourceMeta ≠ ManifestResourceMeta.empty)
    (hmiss : ∀ c ∈ l1 ++ a :: l2 ++ b :: l3, c.resourceMeta ≠ n.resourceMeta)
    (hkeyn : resetOrdinal n.resourceMeta = resetOrdinal a.resourceMeta)
    (hn : fresh[i]? = some n) :
    (MergeManifestConditions now (l1 ++ a :: l2 ++ b :: l3) fresh)[i]? =
      some { n with
        conditions := n.conditions.map fun c => { c with lastTransitionTime := now } } := by
  have hcount : 2 ≤ countKey (l1 ++ a :: l2 ++ b :: l3) (resetOrdinal a.resourceMeta) := by
    have hb : resetOrdinal b.resourceMeta = resetOrdinal a.resourceMeta := hkey.symm
    simp [countKey, List.filter_append, List.filter_cons, hb]
    omega
  have hdup := buildIndices_duplicated (l1 ++ a :: l2 ++ b :: l3)
    (resetOrdinal a.resourceMeta) hne hcount
  have hexact := buildIndices_metaIndex_none (l1 ++ a :: l2 ++ b :: l3)
    n.resourceMeta hmiss
  have hfree : mapLookup
      ((buildIndices (l1 ++ a :: l2 ++ b :: l3)).duplicated.foldl mapDelete
        (buildIndices (l1 ++ a :: l2 ++ b :: l3)).metaWithoutOrdinalIndex)
      (resetOrdinal n.resourceMeta) = none := by
    rw [hkeyn]
    exact mapLookup_foldl_delete_mem _ _ _ hdup
  unfold MergeManifestConditions
  rw [List.getElem?_map, hn, Option.map_some']
  rw [hexact, hfree]

/-- Witness for C6 at a concrete input: two existing records for "resource1"
with ordinals 0 and 1 collide on the ordinal-free key; the fresh record with
ordinal 2 misses the exact index and is stamped to now (99) instead of being
merged (which would have kept timestamp 3 or 4). -/
theorem mergeManifestConditions_ambiguous_key_unmatched_witness :
    (MergeManifestConditions 99
        ([] ++ mkMC 0 "resource1" [mkCond "one" "True" 3] ::
          [] ++ mkMC 1 "resource1" [mkCond "one" "True" 4] :: [])
        [mkMC 2 "resource1" [mkCond "one" "True" 7]])[0]? =
      some { mkMC 2 "resource1" [mkCond "one" "True" 7] with
        conditions := [mkCond "one" "True" 7].map fun c => { c with lastTransitionTime := 99 } } :=
  mergeManifestConditions_ambiguous_key_unmatched 99 [] [] [] _
    (mkMC 0 "resource1" [mkCond "one" "True" 3]) (mkMC 1 "resource1" [mkCond "one" "True" 4])
    (mkMC 2 "resource1" [mkCond "one" "True" 7]) 0 (by decide) (by decide) (by decide)
    (by decide) (by decide)

/-! ## Idempotence of the merge -/

theorem updateExistingCondition_self (now : Nat) (c : Condition) :
    updateExistingCondition now c c = c := by
  unfold updateExistingCondition
  rw [if_neg (by simp)]

theorem setStatusCondition_self (now : Nat) (l : List Condition)
    (hnd : (l.map (·.type)).Nodup) : ∀ ci ∈ l, SetStatusCondition now l ci = l := by
  induction l with
  | nil => simp
  | cons d rest ih =>
    have hpair : (∀ x ∈ rest, ¬ x.type = d.type) ∧ (rest.map (·.type)).Nodup := by
      simpa using hnd
    intro ci hci
    rcases List.mem_cons.mp hci with hci | hci
    · subst hci
      simp [SetStatusCondition, updateExistingCondition_self]
    · have hne : ¬ d.type = ci.type := fun hh => hpair.1 ci hci hh.symm
      simp [SetStatusCondition, hne, ih hpair.2 ci hci]

theorem foldl_fixed {α β : Type} (f : β → α → β) (b : β) (l : List α)
    (h : ∀ x ∈ l, f b x = b) : l.foldl f b = b := by
  induction l with
  | nil => rfl
  | cons x xs ih =>
    rw [List.foldl_cons, h x (by simp)]
    exact ih (fun y hy => h y (by simp [hy]))

theorem mergeStatusConditions_self (now : Nat) (l : List Condition)
    (hnd : (l.map (·.type)).Nodup) : MergeStatusConditions now l l = l :=
  foldl_fixed (SetStatusCondition now) l l (setStatusCondition_self now l hnd)

theorem foldl_mapInsert_preserve (t : List ManifestCondition) :
    ∀ (m : MetaMap) (k : ManifestResourceMeta), (∀ c ∈ t, c.resourceMeta ≠ k) →
      mapLookup (t.foldl (fun m c => mapInsert m c.resourceMeta c) m) k = mapLookup m k := by
  induction t with
  | nil => intro m k _; rfl
  | cons c rest ih =>
    intro m k hk
    rw [List.foldl_cons, ih _ k (fun d hd => hk d (by simp [hd]))]
    exact mapLookup_insert_ne m c.resourceMeta k c (fun hh => hk c (by simp) hh.symm)

theorem foldl_buildIndicesStep_metaIndex (l : List ManifestCondition) :
    ∀ st : MergeIndices, (l.foldl buildIndicesStep st).metaIndex =
      l.foldl (fun m c => mapInsert m c.resourceMeta c) st.metaIndex := by
  induction l with
  | nil => intro st; rfl
  | cons c rest ih =>
    intro st
    rw [List.foldl_cons, List.foldl_cons, ih, buildIndicesStep_metaIndex]

theorem buildIndices_metaIndex_self (X : List ManifestCondition)
    (hnd : (X.map (·.resourceMeta)).Nodup) (r : ManifestCondition) (hr : r ∈ X) :
    mapLookup (buildIndices X).metaIndex r.resourceMeta = some r := by
  obtain ⟨s, t, rfl⟩ := List.append_of_mem hr
  have h1 : ((r :: t).map (·.resourceMeta)).Nodup := by
    have := hnd
    rw [List.map_append] at this
    exact this.of_append_right
  have hpair : (∀ x ∈ t, ¬ x.resourceMeta = r.resourceMeta) ∧
      (t.map (·.resourceMeta)).Nodup := by simpa using h1
  have ht : ∀ c ∈ t, c.resourceMeta ≠ r.resourceMeta := fun c hc => hpair.1 c hc
  unfold buildIndices
  rw [foldl_buildIndicesStep_metaIndex]
  rw [List.foldl_append, List.foldl_cons]
  rw [foldl_mapInsert_preserve t _ r.resourceMeta ht]
  exact mapLookup_insert_self _ r.resourceMeta r

/-- C9 counterexample: a list with two records sharing the same full resource
meta but different status feedbacks is not a fixed point of the merge — both
output records take the last record's feedbacks. -/
theorem mergeManifestConditions_not_idempotent :
    MergeManifestConditions 5
        [{ resourceMeta := (mkMC 0 "r1" []).resourceMeta, statusFeedbacks := ["f1"],
           conditions := [] },
         { resourceMeta := (mkMC 0 "r1" []).resourceMeta, statusFeedbacks := ["f2"],
           conditions := [] }]
        [{ resourceMeta := (mkMC 0 "r1" []).resourceMeta, statusFeedbacks := ["f1"],
           conditions := [] },
         { resourceMeta := (mkMC 0 "r1" []).resourceMeta, statusFeedbacks := ["f2"],
           conditions := [] }]
      ≠ [{ resourceMeta := (mkMC 0 "r1" []).resourceMeta, statusFeedbacks := ["f1"],
           conditions := [] },
         { resourceMeta := (mkMC 0 "r1" []).resourceMeta, statusFeedbacks := ["f2"],
           conditions := [] }] := by decide

/-- C9 (amended): the merge is idempotent on every list whose records have
pairwise-distinct full resource metas and pairwise-distinct condition names
within each record: merging such an X with itself returns X exactly —
identities, ordinals, feedbacks, statuses, reasons, messages and timestamps
all unchanged. -/
theorem mergeManifestConditions_self (now : Nat) (X : List ManifestCondition)
    (hmeta : (X.map (·.resourceMeta)).Nodup)
    (htypes : ∀ r ∈ X, (r.conditions.map (·.type)).Nodup) :
    MergeManifestConditions now X X = X := by
  unfold MergeManifestConditions
  have hself : ∀ r ∈ X,
      (match mapLookup (buildIndices X).metaIndex r.resourceMeta with
        | some condition => mergeManifestCondition now condition r
        | none =>
          match mapLookup
              ((buildIndices X).duplicated.foldl mapDelete
                (buildIndices X).metaWithoutOrdinalIndex) (resetOrdinal r.resourceMeta) with
          | some condition => mergeManifestCondition now condition r
          | none =>
            { r with
              conditions := r.conditions.map fun c => { c with lastTransitionTime := now } })
        = r := by
    intro r hr
    rw [buildIndices_metaIndex_self X hmeta r hr]
    show mergeManifestCondition now r r = r
    unfold mergeManifestCondition
    rw [mergeStatusConditions_self now r.conditions (htypes r hr)]
  calc X.map _ = X.map id := List.map_congr_left hself
    _ = X := List.map_id X

/-- Witness for C9 (amended) at a concrete input: a two-record list with
distinct metas and distinct condition names is returned unchanged. -/
theorem mergeManifestConditions_self_witness :
    MergeManifestConditions 42
        [mkMC 0 "resource1" [mkCond "one" "True" 3],
         mkMC 1 "resource2" [mkCond "one" "True" 4, mkCond "two" "False" 5]]
        [mkMC 0 "resource1" [mkCond "one" "True" 3],
         mkMC 1 "resource2" [mkCond "one" "True" 4, mkCond "two" "False" 5]]
      = [mkMC 0 "resource1" [mkCond "one" "True" 3],
         mkMC 1 "resource2" [mkCond "one" "True" 4, mkCond "two" "False" 5]] :=
  mergeManifestConditions_self 42
    [mkMC 0 "resource1" [mkCond "one" "True" 3],
     mkMC 1 "resource2" [mkCond "one" "True" 4, mkCond "two" "False" 5]]
    (by decide) (by decide)

/-! ## Data model: applied resources and the garbage collector
(`pkg/spoke/helper/helper.go`) -/

structure GroupVersionResource where
  group : String
  version : String
  resource : String
deriving DecidableEq, Repr

/-- `workapiv1.AppliedManifestResourceMeta`: version plus the resource
identifier (group/resource/namespace/name) and the tracked UID, flattened. -/
structure AppliedManifestResourceMeta where
  group : String
  version : String
  resource : String
  ns : String
  name : String
  uid : String
deriving DecidableEq, Repr

def gvrOf (r : AppliedManifestResourceMeta) : GroupVersionResource :=
  { group := r.group, version := r.version, resource := r.resource }

/-- `metav1.OwnerReference` (the fields the code reads or writes). -/
structure OwnerReference where
  apiVersion : String
  kind : String
  name : String
  uid : String
deriving DecidableEq, Repr

/-- The accessor view of the live (unstructured) object returned by the
dynamic client's Get: the fields `DeleteAppliedResources` and
`ApplyOwnerReferences` read. -/
structure LiveObject where
  ns : String
  name : String
  uid : String
  resourceVersion : String
  ownerReferences : List OwnerReference
  deletionTimestamp : Option Nat
deriving DecidableEq, Repr

/-- Classification of a Kubernetes API error, as tested by
`apierrors.IsForbidden` and `apierrors.IsAlreadyExists`. -/
inductive ApiError
  | forbidden
  | alreadyExists
  | otherErr (msg : String)
deriving DecidableEq, Repr

inductive GetResult
  | notFound
  | getError (e : ApiError)
  | found (obj : LiveObject)
deriving DecidableEq, Repr

inductive DeleteResult
  | ok
  | notFound
  | conflict
  | deleteError (e : ApiError)
deriving DecidableEq, Repr

/-- The merge-patch object built by `ApplyOwnerReferences`: it carries only
the UID, the resource version and the owner-reference list, so a merge patch
of it leaves every other field of the object unchanged. -/
structure PatchObject where
  uid : String
  resourceVersion : String
  ownerReferences : List OwnerReference
deriving DecidableEq, Repr

structure PatchCall where
  gvr : GroupVersionResource
  ns : String
  name : String
  patch : PatchObject
deriving DecidableEq, Repr

structure DeleteCall where
  gvr : GroupVersionResource
  ns : String
  name : String
  uidPrecondition : String
  propagationPolicy : String
deriving DecidableEq, Repr

/-- Deterministic oracles for the collaborator calls made by
`DeleteAppliedResources`: the dynamic client's Get, Delete and Patch outcomes,
and the executor delete-authorization outcome.

`validateDelete` stands for `validator.ValidateDelete` of the executor
validator built from the kube client and the executor argument; its
implementation is not among the sources, and `DeleteAppliedResources` inspects
only the classification of its result (allowed / forbidden denial / other
error), which is exactly what the oracle supplies. -/
structure GCWorld where
  getObject : GroupVersionResource → String → String → GetResult
  validateDelete : GroupVersionResource → String → String → Option ApiError
  patchResult : PatchCall → Option ApiError
  deleteResult : GroupVersionResource → String → String → String → DeleteResult

/-- The `fmt.Errorf`-wrapped errors accumulated by `DeleteAppliedResources`,
tagged by origin. -/
inductive GCError
  | getFailed (r : AppliedManifestResourceMeta) (e : ApiError)
  | permissionCheckFailed (r : AppliedManifestResourceMeta) (e : ApiError)
  | removeOwnerFailed (r : AppliedManifestResourceMeta) (e : ApiError)
  | deleteFailed (r : AppliedManifestResourceMeta) (e : ApiError)
deriving DecidableEq, Repr

def GCError.isPermissionCheckFailed : GCError → Bool
  | .permissionCheckFailed _ _ => true
  | _ => false

/-- Result state of a `DeleteAppliedResources` run: the two returned lists
plus the traces of the mutating calls it issued. -/
structure GCState where
  pending : List AppliedManifestResourceMeta
  errs : List GCError
  deletes : List DeleteCall
  patches : List PatchCall
deriving DecidableEq, Repr

def GCState.init : GCState := ⟨[], [], [], []⟩

/-- `IsOwnedBy` (`pkg/helper/helpers.go`): true exactly when some existing
owner reference has the agent owner's UID; name, kind and API version are not
compared. -/
def IsOwnedBy (myOwner : OwnerReference) (existingOwners : List OwnerReference) : Bool :=
  existingOwners.any fun owner => decide (myOwner.uid = owner.uid)

/-- `strings.HasSuffix(uid, "-")`, the removal marker test. -/
def endsWithDash (s : String) : Bool :=
  s.data.getLast? = some '-'

/-- `strings.TrimSuffix(uid, "-")` for a string that ends in the marker. -/
def trimDash (s : String) : String :=
  ⟨s.data.dropLast⟩

/-- Modelled from the spec: `resourcemerge.MergeOwnerRefs` (openshift
library-go), whose implementation is not among the sources. Per the spec the
required owners are merged against the current list: a required owner whose
UID carries the "-" removal suffix removes the owner entries whose UID equals
the unsuffixed UID and leaves every other owner reference untouched; a plain
required owner replaces the entry with the same UID or is appended. The
boolean reports whether the list changed. -/
def mergeOwnerRefs (existing required : List OwnerReference) : Bool × List OwnerReference :=
  required.foldl
    (fun acc o =>
      if endsWithDash o.uid then
        let target := trimDash o.uid
        let kept := acc.2.filter fun e => decide (e.uid ≠ target)
        (acc.1 || decide (kept.length ≠ acc.2.length), kept)
      else if acc.2.any fun e => decide (e.uid = o.uid) then
        let replaced := acc.2.map fun e => if e.uid = o.uid then o else e
        (acc.1 || decide (replaced ≠ acc.2), replaced)
      else (true, acc.2 ++ [o]))
    (false, existing)

/-- `ApplyOwnerReferences` (`pkg/spoke/helper/helper.go`): build a merge patch
carrying only the object's UID, resource version, and the owner-reference list
merged with the required owner; skip the patch call when the merge changed
nothing. Returns the patch error (none on success or skip) and the issued
patch call, if any. -/
def ApplyOwnerReferences (w : GCWorld) (gvr : GroupVersionResource) (existing : LiveObject)
    (requiredOwner : OwnerReference) : Option ApiError × Option PatchCall :=
  let merged := mergeOwnerRefs existing.ownerReferences [requiredOwner]
  if merged.1 = false then (none, none)
  else
    let call : PatchCall :=
      { gvr := gvr, ns := existing.ns, name := existing.name,
        patch := { uid := existing.uid, resourceVersion := existing.resourceVersion,
                   ownerReferences := merged.2 } }
    (w.patchResult call, some call)

/-- `u.GetDeletionTimestamp() != nil && !u.GetDeletionTimestamp().IsZero()`. -/
def hasNonZeroDeletionTimestamp (u : LiveObject) : Bool :=
  match u.deletionTimestamp with
  | none => false
  | some t => decide (t ≠ 0)

/-- The tail of one loop iteration of `DeleteAppliedResources`, from the
multiple-owners check on (after the fetch, ownership and delete-authorization
steps): strip ownership when other owners remain, otherwise drop on UID
mismatch, keep terminating objects pending, and otherwise issue the delete
with the UID precondition and background propagation. -/
def deleteAppliedResourceAfterAuth (w : GCWorld) (ownerCopy : OwnerReference) (st : GCState)
    (resource : AppliedManifestResourceMeta) (gvr : GroupVersionResource)
    (u : LiveObject) : GCState :=
  if 1 < u.ownerReferences.length then
    let applied := ApplyOwnerReferences w gvr u ownerCopy
    let st' := { st with patches := st.patches ++ applied.2.toList }
    match applied.1 with
    | some e => { st' with errs := st'.errs ++ [.removeOwnerFailed resource e] }
    | none => st'
  else if resource.uid ≠ u.uid then st
  else if hasNonZeroDeletionTimestamp u then
    { st with pending := st.pending ++ [resource] }
  else
    let st' := { st with
      deletes := st.deletes ++
        [{ gvr := gvr, ns := resource.ns, name := resource.name,
           uidPrecondition := resource.uid, propagationPolicy := "Background" }] }
    match w.deleteResult gvr resource.ns resource.name resource.uid with
    | .notFound => st'
    | .conflict => st'
    | .deleteError e => { st' with errs := st'.errs ++ [.deleteFailed resource e] }
    | .ok => { st' with pending := st'.pending ++ [resource] }

/-- One loop iteration of `DeleteAppliedResources`: fetch the object (dropping
silently on not-found, accumulating other fetch errors), skip objects not
owned by the agent, then check delete authorization — a non-forbidden error is
accumulated and the resource skipped, while a forbidden denial is only logged
and processing falls through. -/
def deleteAppliedResourceStep (w : GCWorld) (owner ownerCopy : OwnerReference)
    (st : GCState) (resource : AppliedManifestResourceMeta) : GCState :=
  let gvr := gvrOf resource
  match w.getObject gvr resource.ns resource.name with
  | .notFound => st
  | .getError e => { st with errs := st.errs ++ [.getFailed resource e] }
  | .found u =>
    if ¬ IsOwnedBy owner u.ownerReferences then st
    else
      match w.validateDelete gvr resource.ns resource.name with
      | some e =>
        if e ≠ .forbidden then
          { st with errs := st.errs ++ [.permissionCheckFailed resource e] }
        else deleteAppliedResourceAfterAuth w ownerCopy st resource gvr u
      | none => deleteAppliedResourceAfterAuth w ownerCopy st resource gvr u

/-- `DeleteAppliedResources` (`pkg/spoke/helper/helper.go`): process every
tracked resource in order, returning the pending-finalization list, the
accumulated errors and the traces of issued delete and patch calls. The
`reason` string and the event recorder only feed the human-readable event on a
successful delete and are omitted; the executor argument is absorbed into the
`validateDelete` oracle. -/
def DeleteAppliedResources (w : GCWorld) (resources : List AppliedManifestResourceMeta)
    (owner : OwnerReference) : GCState :=
  let ownerCopy := { owner with uid := owner.uid ++ "-" }
  resources.foldl (deleteAppliedResourceStep w owner ownerCopy) GCState.init

/-! ## Lemmas about the owner-reference merge and the GC loop -/

theorem endsWithDash_append (s : String) : endsWithDash (s ++ "-") = true := by
  simp [endsWithDash, String.data_append]

theorem trimDash_append (s : String) : trimDash (s ++ "-") = s := by
  simp [trimDash, String.data_append]

theorem length_filter_lt {α : Type} (p : α → Bool) (l : List α) (a : α)
    (ha : a ∈ l) (hpa : p a = false) : (l.filter p).length < l.length := by
  induction l with
  | nil => cases ha
  | cons b rest ih =>
    rcases List.mem_cons.mp ha with h | h
    · subst h
      rw [List.filter_cons, hpa]
      simpa using Nat.lt_succ_of_le (List.length_filter_le p rest)
    · rw [List.filter_cons]
      by_cases hb : p b = true
      · simpa [hb] using ih h
      · simp only [hb, if_false]
        exact Nat.lt_succ_of_lt (ih h)

theorem mergeOwnerRefs_removal (existing : List OwnerReference) (owner : OwnerReference)
    (howned : IsOwnedBy owner existing = true) :
    mergeOwnerRefs existing [{ owner with uid := owner.uid ++ "-" }] =
      (true, existing.filter fun e => decide (e.uid ≠ owner.uid)) := by
  obtain ⟨e0, he0, heq⟩ : ∃ x ∈ existing, owner.uid = x.uid := by
    simpa [IsOwnedBy, List.any_eq_true] using howned
  have hlt : (existing.filter fun e => decide (e.uid ≠ owner.uid)).length < existing.length := by
    refine length_filter_lt _ existing e0 he0 ?_
    simp [heq.symm]
  unfold mergeOwnerRefs
  rw [List.foldl_cons, List.foldl_nil]
  simp only [endsWithDash_append, trimDash_append, if_true, Bool.false_or]
  rw [decide_eq_true (Nat.ne_of_lt hlt)]

theorem deleteAppliedResources_single_eval (w : GCWorld) (owner : OwnerReference)
    (r : AppliedManifestResourceMeta) (u : LiveObject)
    (hget : w.getObject (gvrOf r) r.ns r.name = .found u)
    (howned : IsOwnedBy owner u.ownerReferences = true)
    (hval : w.validateDelete (gvrOf r) r.ns r.name = none ∨
            w.validateDelete (gvrOf r) r.ns r.name = some .forbidden) :
    DeleteAppliedResources w [r] owner =
      deleteAppliedResourceAfterAuth w { owner with uid := owner.uid ++ "-" }
        GCState.init r (gvrOf r) u := by
  have hrun : DeleteAppliedResources w [r] owner =
      deleteAppliedResourceStep w owner { owner with uid := owner.uid ++ "-" }
        GCState.init r := rfl
  rw [hrun]
  rcases hval with h | h <;>
    simp [deleteAppliedResourceStep, hget, howned, h]

/-- The ownership-stripping patch call `DeleteAppliedResources` issues for a
live object with other owners: only the entries carrying the agent owner's UID
are removed from the owner-reference list. -/
def removalCall (gvr : GroupVersionResource) (u : LiveObject) (owner : OwnerReference) :
    PatchCall :=
  { gvr := gvr, ns := u.ns, name := u.name,
    patch := { uid := u.uid, resourceVersion := u.resourceVersion,
               ownerReferences := u.ownerReferences.filter
                 fun e => decide (e.uid ≠ owner.uid) } }

theorem applyOwnerReferences_removal (w : GCWorld) (gvr : GroupVersionResource)
    (u : LiveObject) (owner : OwnerReference)
    (howned : IsOwnedBy owner u.ownerReferences = true) :
    ApplyOwnerReferences w gvr u { owner with uid := owner.uid ++ "-" } =
      (w.patchResult (removalCall gvr u owner), some (removalCall gvr u owner)) := by
  unfold ApplyOwnerReferences
  rw [mergeOwnerRefs_removal u.ownerReferences owner howned]
  rfl

theorem afterAuth_other_owners (w : GCWorld) (owner : OwnerReference) (st : GCState)
    (r : AppliedManifestResourceMeta) (gvr : GroupVersionResource) (u : LiveObject)
    (howned : IsOwnedBy owner u.ownerReferences = true)
    (hlen : 1 < u.ownerReferences.length) :
    (deleteAppliedResourceAfterAuth w { owner with uid := owner.uid ++ "-" } st r gvr u).deletes
        = st.deletes ∧
    (deleteAppliedResourceAfterAuth w { owner with uid := owner.uid ++ "-" } st r gvr u).pending
        = st.pending ∧
    (deleteAppliedResourceAfterAuth w { owner with uid := owner.uid ++ "-" } st r gvr u).patches
        = st.patches ++ [removalCall gvr u owner] ∧
    (∀ e ∈ (deleteAppliedResourceAfterAuth w { owner with uid := owner.uid ++ "-" }
        st r gvr u).errs, e ∈ st.errs ∨ e.isPermissionCheckFailed = false) := by
  unfold deleteAppliedResourceAfterAuth
  rw [if_pos hlen, applyOwnerReferences_removal w gvr u owner howned]
  dsimp only
  cases hpr : w.patchResult (removalCall gvr u owner) with
  | none => exact ⟨rfl, rfl, rfl, fun e he => Or.inl he⟩
  | some e =>
    refine ⟨rfl, rfl, rfl, ?_⟩
    intro x hx
    rcases List.mem_append.mp hx with hx | hx
    · exact Or.inl hx
    · right
      have hx' : x = GCError.removeOwnerFailed r e := by simpa using hx
      rw [hx']
      rfl

theorem afterAuth_sole_owner_delete (w : GCWorld) (ownerCopy : OwnerReference) (st : GCState)
    (r : AppliedManifestResourceMeta) (gvr : GroupVersionResource) (u : LiveObject)
    (hlen : ¬ 1 < u.ownerReferences.length) (huid : r.uid = u.uid)
    (hts : hasNonZeroDeletionTimestamp u = false) :
    (deleteAppliedResourceAfterAuth w ownerCopy st r gvr u).deletes =
      st.deletes ++ [{ gvr := gvr, ns := r.ns, name := r.name, uidPrecondition := r.uid,
                       propagationPolicy := "Background" }] ∧
    (deleteAppliedResourceAfterAuth w ownerCopy st r gvr u).patches = st.patches ∧
    (∀ e ∈ (deleteAppliedResourceAfterAuth w ownerCopy st r gvr u).errs,
      e ∈ st.errs ∨ e.isPermissionCheckFailed = false) := by
  unfold deleteAppliedResourceAfterAuth
  rw [if_neg hlen, if_neg (by simp [huid]), if_neg (by simp [hts])]
  dsimp only
  cases hdr : w.deleteResult gvr r.ns r.name r.uid with
  | deleteError e =>
    refine ⟨rfl, rfl, ?_⟩
    intro x hx
    rcases List.mem_append.mp hx with hx | hx
    · exact Or.inl hx
    · right
      have hx' : x = GCError.deleteFailed r e := by simpa using hx
      rw [hx']
      rfl
  | ok => exact ⟨rfl, rfl, fun e he => Or.inl he⟩
  | notFound => exact ⟨rfl, rfl, fun e he => Or.inl he⟩
  | conflict => exact ⟨rfl, rfl, fun e he => Or.inl he⟩

theorem afterAuth_errs_no_perm (w : GCWorld) (ownerCopy : OwnerReference) (st : GCState)
    (r : AppliedManifestResourceMeta) (gvr : GroupVersionResource) (u : LiveObject) :
    ∀ e ∈ (deleteAppliedResourceAfterAuth w ownerCopy st r gvr u).errs,
      e ∈ st.errs ∨ e.isPermissionCheckFailed = false := by
  unfold deleteAppliedResourceAfterAuth
  by_cases h1 : 1 < u.ownerReferences.length
  · rw [if_pos h1]
    dsimp only
    cases hpr : (ApplyOwnerReferences w gvr u ownerCopy).1 with
    | none => exact fun e he => Or.inl he
    | some e0 =>
      intro x hx
      rcases List.mem_append.mp hx with hx | hx
      · exact Or.inl hx
      · right
        have hx' : x = GCError.removeOwnerFailed r e0 := by simpa using hx
        rw [hx']
        rfl
  · rw [if_neg h1]
    by_cases h2 : r.uid ≠ u.uid
    · rw [if_pos h2]
      exact fun e he => Or.inl he
    · rw [if_neg h2]
      by_cases h3 : hasNonZeroDeletionTimestamp u = true
      · rw [if_pos h3]
        exact fun e he => Or.inl he
      · rw [if_neg h3]
        dsimp only
        cases hdr : w.deleteResult gvr r.ns r.name r.uid with
        | deleteError e0 =>
          intro x hx
          rcases List.mem_append.mp hx with hx | hx
          · exact Or.inl hx
          · right
            have hx' : x = GCError.deleteFailed r e0 := by simpa using hx
            rw [hx']
            rfl
        | ok => exact fun e he => Or.inl he
        | notFound => exact fun e he => Or.inl he
        | conflict => exact fun e he => Or.inl he

/-! ## Concrete worlds for the GC claims -/

def agentOwner : OwnerReference :=
  { apiVersion := "work/v1", kind := "AppliedManifestWork", name := "am1", uid := "uidA" }

def otherOwner : OwnerReference :=
  { apiVersion := "apps/v1", kind := "Deployment", name := "dep1", uid := "uidB" }

def trackedSecret : AppliedManifestResourceMeta :=
  { group := "", version := "v1", resource := "secrets", ns := "ns1", name := "n1", uid := "u1" }

def soleOwnerLive : LiveObject :=
  { ns := "ns1", name := "n1", uid := "u1", resourceVersion := "1",
    ownerReferences := [agentOwner], deletionTimestamp := none }

/-- World for C2: the live object is solely owned by the agent, the executor's
delete authorization is denied (forbidden), and the delete call itself would
succeed. -/
def soleOwnerForbiddenWorld : GCWorld :=
  { getObject := fun _ _ _ => .found soleOwnerLive,
    validateDelete := fun _ _ _ => some .forbidden,
    patchResult := fun _ => none,
    deleteResult := fun _ _ _ _ => .ok }

def sharedOwnerLive : LiveObject :=
  { ns := "ns1", name := "n1", uid := "u1", resourceVersion := "1",
    ownerReferences := [agentOwner, otherOwner], deletionTimestamp := none }

/-- World for C8: the live object carries the agent's owner reference plus
another owner. -/
def sharedOwnerWorld : GCWorld :=
  { getObject := fun _ _ _ => .found sharedOwnerLive,
    validateDelete := fun _ _ _ => none,
    patchResult := fun _ => none,
    deleteResult := fun _ _ _ _ => .ok }

def sameNameDiffUidLive : LiveObject :=
  { ns := "ns1", name := "n1", uid := "u1", resourceVersion := "1",
    ownerReferences :=
      [{ apiVersion := "work/v1", kind := "AppliedManifestWork", name := "am1",
         uid := "uidZ" }],
    deletionTimestamp := none }

/-- World for C10: the live object's only owner reference carries the agent's
name but a different UID. -/
def sameNameDiffUidWorld : GCWorld :=
  { getObject := fun _ _ _ => .found sameNameDiffUidLive,
    validateDelete := fun _ _ _ => none,
    patchResult := fun _ => none,
    deleteResult := fun _ _ _ _ => .ok }

/-- C2 counterexample: the tracked resource's delete authorization is denied
with a forbidden error and the agent is the sole owner, yet the delete call is
still issued (and succeeds; the resource even becomes pending), while the
denial is indeed absent from the errors — so "the delete call for that
resource is skipped" is false on the code. -/
theorem deleteAppliedResources_forbidden_still_deletes :
    (DeleteAppliedResources soleOwnerForbiddenWorld [trackedSecret] agentOwner).deletes =
      [{ gvr := { group := "", version := "v1", resource := "secrets" }, ns := "ns1",
         name := "n1", uidPrecondition := "u1", propagationPolicy := "Background" }] ∧
    (DeleteAppliedResources soleOwnerForbiddenWorld [trackedSecret] agentOwner).errs = [] ∧
    (DeleteAppliedResources soleOwnerForbiddenWorld [trackedSecret] agentOwner).pending =
      [trackedSecret] := by decide

/-- C2 (amended): for a tracked resource whose delete authorization is denied
with a forbidden error, the denial is not appended to the returned errors and
processing continues to the ownership-cleanup step — the agent's owner entry is
stripped when other owners exist — but the denial does not suppress the delete:
when the agent is the sole owner and the tracked UID matches a live object not
yet terminating, the delete call is still issued. -/
theorem deleteAppliedResources_forbidden_soft_fail (w : GCWorld) (owner : OwnerReference)
    (r : AppliedManifestResourceMeta) (u : LiveObject)
    (hget : w.getObject (gvrOf r) r.ns r.name = .found u)
    (howned : IsOwnedBy owner u.ownerReferences = true)
    (hforb : w.validateDelete (gvrOf r) r.ns r.name = some .forbidden) :
    (∀ e ∈ (DeleteAppliedResources w [r] owner).errs, e.isPermissionCheckFailed = false) ∧
    (1 < u.ownerReferences.length →
      (DeleteAppliedResources w [r] owner).deletes = [] ∧
      (DeleteAppliedResources w [r] owner).patches = [removalCall (gvrOf r) u owner]) ∧
    (¬ 1 < u.ownerReferences.length → r.uid = u.uid →
      hasNonZeroDeletionTimestamp u = false →
      (DeleteAppliedResources w [r] owner).deletes =
        [{ gvr := gvrOf r, ns := r.ns, name := r.name, uidPrecondition := r.uid,
           propagationPolicy := "Background" }]) := by
  have heval := deleteAppliedResources_single_eval w owner r u hget howned (Or.inr hforb)
  rw [heval]
  refine ⟨?_, ?_, ?_⟩
  · intro e he
    rcases afterAuth_errs_no_perm w _ GCState.init r (gvrOf r) u e he with h | h
    · simp [GCState.init] at h
    · exact h
  · intro hlen
    obtain ⟨hd, _, hpa, _⟩ :=
      afterAuth_other_owners w owner GCState.init r (gvrOf r) u howned hlen
    exact ⟨hd, hpa⟩
  · intro hlen huid hts
    obtain ⟨hd, _, _⟩ :=
      afterAuth_sole_owner_delete w _ GCState.init r (gvrOf r) u hlen huid hts
    exact hd

/-- Witness for C2 (amended) at the concrete forbidden-denial world: the
delete call is still issued with the UID precondition and background
propagation. -/
theorem deleteAppliedResources_forbidden_soft_fail_witness :
    (DeleteAppliedResources soleOwnerForbiddenWorld [trackedSecret] agentOwner).deletes =
      [{ gvr := gvrOf trackedSecret, ns := trackedSecret.ns, name := trackedSecret.name,
         uidPrecondition := trackedSecret.uid, propagationPolicy := "Background" }] :=
  (deleteAppliedResources_forbidden_soft_fail soleOwnerForbiddenWorld agentOwner trackedSecret
      soleOwnerLive rfl (by decide) rfl).2.2 (by decide) (by decide) (by decide)

/-- C8: for a tracked, agent-owned live object that carries owner references
besides the agent's (and whose delete authorization did not hard-fail), no
delete call is issued and the resource is not added to pendingFinalization;
instead a single merge patch is issued that carries only the object's UID,
resource version, and the owner-reference list with exactly the agent's
entries removed, leaving every other owner reference unchanged. -/
theorem deleteAppliedResources_other_owners_patch_only (w : GCWorld) (owner : OwnerReference)
    (r : AppliedManifestResourceMeta) (u : LiveObject)
    (hget : w.getObject (gvrOf r) r.ns r.name = .found u)
    (howned : IsOwnedBy owner u.ownerReferences = true)
    (hlen : 1 < u.ownerReferences.length)
    (hval : w.validateDelete (gvrOf r) r.ns r.name = none ∨
            w.validateDelete (gvrOf r) r.ns r.name = some .forbidden) :
    (DeleteAppliedResources w [r] owner).deletes = [] ∧
    (DeleteAppliedResources w [r] owner).pending = [] ∧
    (DeleteAppliedResources w [r] owner).patches =
      [{ gvr := gvrOf r, ns := u.ns, name := u.name,
         patch := { uid := u.uid, resourceVersion := u.resourceVersion,
                    ownerReferences := u.ownerReferences.filter
                      fun e => decide (e.uid ≠ owner.uid) } }] := by
  have heval := deleteAppliedResources_single_eval w owner r u hget howned hval
  rw [heval]
  obtain ⟨hd, hp, hpa, _⟩ :=
    afterAuth_other_owners w owner GCState.init r (gvrOf r) u howned hlen
  exact ⟨hd, hp, hpa⟩

/-- Witness for C8 at the concrete shared-owner world: zero deletes, nothing
pending, one patch whose owner list keeps only the other owner. -/
theorem deleteAppliedResources_other_owners_patch_only_witness :
    (DeleteAppliedResources sharedOwnerWorld [trackedSecret] agentOwner).deletes = [] ∧
    (DeleteAppliedResources sharedOwnerWorld [trackedSecret] agentOwner).pending = [] ∧
    (DeleteAppliedResources sharedOwnerWorld [trackedSecret] agentOwner).patches =
      [{ gvr := gvrOf trackedSecret, ns := sharedOwnerLive.ns, name := sharedOwnerLive.name,
         patch := { uid := sharedOwnerLive.uid,
                    resourceVersion := sharedOwnerLive.resourceVersion,
                    ownerReferences := sharedOwnerLive.ownerReferences.filter
                      fun e => decide (e.uid ≠ agentOwner.uid) } }] :=
  deleteAppliedResources_other_owners_patch_only sharedOwnerWorld agentOwner trackedSecret
    sharedOwnerLive rfl (by decide) (by decide) (Or.inl rfl)

theorem isOwnedBy_iff (myOwner : OwnerReference) (owners : List OwnerReference) :
    IsOwnedBy myOwner owners = true ↔ ∃ o ∈ owners, myOwner.uid = o.uid := by
  simp [IsOwnedBy, List.any_eq_true]

/-- C10: ownership is decided solely by owner-reference UID — `IsOwnedBy`
holds exactly when some entry has the agent's UID, whatever its name, kind or
API version — and consequently a tracked resource whose live object lists the
agent's name under a different UID is skipped as detached by
`DeleteAppliedResources` (no output, no errors, no calls). -/
theorem isOwnedBy_uid_only (myOwner : OwnerReference) (owners : List OwnerReference)
    (w : GCWorld) (r : AppliedManifestResourceMeta) (u : LiveObject) :
    (IsOwnedBy myOwner owners = true ↔ ∃ o ∈ owners, myOwner.uid = o.uid) ∧
    (w.getObject (gvrOf r) r.ns r.name = .found u →
      (∀ o ∈ u.ownerReferences, o.uid ≠ myOwner.uid) →
      DeleteAppliedResources w [r] myOwner = GCState.init) := by
  refine ⟨isOwnedBy_iff myOwner owners, ?_⟩
  intro hget hdet
  have hnot : ¬ IsOwnedBy myOwner u.ownerReferences = true := by
    rw [isOwnedBy_iff]
    rintro ⟨o, ho, heq⟩
    exact hdet o ho heq.symm
  have hrun : DeleteAppliedResources w [r] myOwner =
      deleteAppliedResourceStep w myOwner { myOwner with uid := myOwner.uid ++ "-" }
        GCState.init r := rfl
  rw [hrun]
  simp [deleteAppliedResourceStep, hget, hnot]

/-- Witness for C10 at the concrete world: the sole owner reference has the
agent's name "am1" but UID "uidZ" instead of "uidA", and the run does
nothing. -/
theorem isOwnedBy_uid_only_witness :
    DeleteAppliedResources sameNameDiffUidWorld [trackedSecret] agentOwner = GCState.init :=
  (isOwnedBy_uid_only agentOwner [] sameNameDiffUidWorld trackedSecret
      sameNameDiffUidLive).2 rfl (by decide)

/-! ## Data model: executor authorization (`pkg/spoke/auth`, `sarValidator`) -/

/-- `workapiv1.ManifestWorkSubjectServiceAccount`. -/
structure ManifestWorkSubjectServiceAccount where
  ns : String
  name : String
deriving DecidableEq, Repr

/-- `workapiv1.ExecutorSubjectTypeServiceAccount`. -/
def ExecutorSubjectTypeServiceAccount : String := "ServiceAccount"

/-- `workapiv1.ManifestWorkExecutorSubject`: the subject type string plus the
optional service-account reference. -/
structure ManifestWorkExecutorSubject where
  type : String
  serviceAccount : Option ManifestWorkSubjectServiceAccount
deriving DecidableEq, Repr

structure ManifestWorkExecutor where
  subject : ManifestWorkExecutorSubject
deriving DecidableEq, Repr

/-- `ExecuteAction` is a string type in the source; the two defined actions. -/
def ApplyAction : String := "Apply"

def DeleteAction : String := "Delete"

/-- `authorizationv1.ResourceAttributes` (the fields the source sets). -/
structure ResourceAttributes where
  ns : String
  name : String
  group : String
  version : String
  resource : String
  subresource : String
  verb : String
deriving DecidableEq, Repr

/-- `authorizationv1.SubjectAccessReview` (its spec: resource attributes, user
and group list). -/
structure SubjectAccessReview where
  resourceAttributes : ResourceAttributes
  user : String
  groups : List String
deriving DecidableEq, Repr

/-- `username`: the derived service-account identity string. -/
def username (saNamespace saName : String) : String :=
  "system:serviceaccount:" ++ saNamespace ++ ":" ++ saName

/-- `groups`: the derived service-account group memberships. -/
def saGroups (saNamespace : String) : List String :=
  ["system:serviceaccounts", "system:authenticated",
   "system:serviceaccounts:" ++ saNamespace]

/-- `buildSubjectAccessReviews`: one review per verb, with the derived user
and groups. -/
def buildSubjectAccessReviews (saNamespace saName : String)
    (resource : ResourceAttributes) (verbs : List String) : List SubjectAccessReview :=
  verbs.map fun verb =>
    { resourceAttributes :=
        { group := resource.group, resource := resource.resource,
          version := resource.version, subresource := resource.subresource,
          name := resource.name, ns := resource.ns, verb := verb },
      user := username saNamespace saName,
      groups := saGroups saNamespace }

/-- The manifest object handed to the dry-run create; opaque to the
authorizer. -/
structure Unstructured where
  raw : String
deriving DecidableEq, Repr

/-- Deterministic oracles for the authorization collaborators: the
SubjectAccessReview create call (API error or `Status.Allowed`) and the
impersonated dry-run create, keyed by the impersonated username (the error
classification; `none` is success). The impersonated-client factory
(`defaultNewImpersonateClient`) fails only on a nil kube config, an
environment precondition assumed to hold, so the factory is modelled as
total. -/
structure AuthWorld where
  sarResult : SubjectAccessReview → Except ApiError Bool
  dryRunCreate : String → GroupVersionResource → String → Unstructured → Option ApiError

/-- The errors `sarValidator.Validate` can return, by shape: the invariant
violations, a pass-through API error, and `NotAllowedError` carrying its
requeue delay in seconds (the error message strings are not modelled). -/
inductive ValidateError
  | unsupportedSubjectType
  | nilServiceAccount
  | invalidAction (action : String)
  | apiError (e : ApiError)
  | notAllowed (requeueSeconds : Nat)
deriving DecidableEq, Repr

/-- Trace of the calls one `Validate` run issues: the SubjectAccessReviews in
order, and the impersonated dry-run creates (username, resource, namespace,
object). -/
structure AuthTrace where
  sars : List SubjectAccessReview
  dryRuns : List (String × GroupVersionResource × String × Unstructured)
deriving DecidableEq, Repr

/-- The loop of `validateBySubjectAccessReviews`: issue each review in order,
returning on the first create error or the first denial; `issued` collects the
requests sent so far. -/
def validateSARsAux (w : AuthWorld) (issued : List SubjectAccessReview) :
    List SubjectAccessReview → Except ApiError Bool × List SubjectAccessReview
  | [] => (.ok true, issued)
  | review :: rest =>
    match w.sarResult review with
    | .error e => (.error e, issued ++ [review])
    | .ok false => (.ok false, issued ++ [review])
    | .ok true => validateSARsAux w (issued ++ [review]) rest

/-- `validateBySubjectAccessReviews`: `.ok true` means every review was
allowed; the second component is the list of review requests actually
issued. -/
def validateBySubjectAccessReviews (w : AuthWorld) (reviews : List SubjectAccessReview) :
    Except ApiError Bool × List SubjectAccessReview :=
  validateSARsAux w [] reviews

def rbacGroup : String := "rbac.authorization.k8s.io"

/-- The four RBAC-defining resource kinds of the escalation-guard switch. -/
def rbacResources : List String :=
  ["roles", "rolebindings", "clusterroles", "clusterrolebindings"]

def applyVerbs : List String := ["create", "update", "patch", "get"]

def deleteVerbs : List String := ["delete"]

/-- The verb-set switch of `sarValidator.Validate`; `none` is the invalid
action default branch. -/
def actionVerbs (action : String) : Option (List String) :=
  if action = ApplyAction then some applyVerbs
  else if action = DeleteAction then some deleteVerbs
  else none

/-- The `resource` attributes `sarValidator.Validate` builds (verb left empty;
it is filled per review). -/
def sarResourceAttributes (gvr : GroupVersionResource) (ns name : String) :
    ResourceAttributes :=
  { ns := ns, name := name, group := gvr.group, version := gvr.version,
    resource := gvr.resource, subresource := "", verb := "" }

namespace sarValidator

/-- `sarValidator.checkEscalation`: dry-run create the object with the client
impersonating the executor; a forbidden failure is an escalation denial (a
retryable not-allowed error with the fixed 60-second requeue), an
already-exists failure is success (the API server checks escalation before
existence), and any other error is returned as-is. -/
def checkEscalation (w : AuthWorld) (user : String) (gvr : GroupVersionResource)
    (ns : String) (obj : Unstructured) (tr : AuthTrace) :
    Option ValidateError × AuthTrace :=
  let tr' := { tr with dryRuns := tr.dryRuns ++ [(user, gvr, ns, obj)] }
  match w.dryRunCreate user gvr ns obj with
  | some .forbidden => (some (.notAllowed 60), tr')
  | some .alreadyExists => (none, tr')
  | some (.otherErr m) => (some (.apiError (.otherErr m)), tr')
  | none => (none, tr')

/-- `sarValidator.Validate`: nil executor always allows; only the
service-account subject type with a non-nil service account is supported; the
verb set comes from the action; the reviews run sequentially with
short-circuit, a denial yielding the retryable not-allowed error with the
60-second requeue; and for Apply on one of the four RBAC-defining kinds in
the RBAC group the escalation guard runs after the reviews pass. -/
def Validate (w : AuthWorld) (executor : Option ManifestWorkExecutor)
    (gvr : GroupVersionResource) (ns name : String) (obj : Unstructured)
    (action : String) : Option ValidateError × AuthTrace :=
  match executor with
  | none => (none, ⟨[], []⟩)
  | some executor =>
    if executor.subject.type ≠ ExecutorSubjectTypeServiceAccount then
      (some .unsupportedSubjectType, ⟨[], []⟩)
    else
      match executor.subject.serviceAccount with
      | none => (some .nilServiceAccount, ⟨[], []⟩)
      | some sa =>
        match actionVerbs action with
        | none => (some (.invalidAction action), ⟨[], []⟩)
        | some verbs =>
          let reviews :=
            buildSubjectAccessReviews sa.ns sa.name (sarResourceAttributes gvr ns name) verbs
          let outcome := validateBySubjectAccessReviews w reviews
          let tr : AuthTrace := { sars := outcome.2, dryRuns := [] }
          match outcome.1 with
          | .error e => (some (.apiError e), tr)
          | .ok false => (some (.notAllowed 60), tr)
          | .ok true =>
            if action ≠ ApplyAction then (none, tr)
            else if gvr.group ≠ rbacGroup then (none, tr)
            else if gvr.resource ∈ rbacResources then
              checkEscalation w (username sa.ns sa.name) gvr ns obj tr
            else (none, tr)

end sarValidator

/-! ## Authorization theorems -/

theorem checkEscalation_dryRuns (w : AuthWorld) (user : String) (gvr : GroupVersionResource)
    (ns : String) (obj : Unstructured) (tr : AuthTrace) :
    (sarValidator.checkEscalation w user gvr ns obj tr).2.dryRuns
      = tr.dryRuns ++ [(user, gvr, ns, obj)] := by
  unfold sarValidator.checkEscalation
  cases w.dryRunCreate user gvr ns obj with
  | none => rfl
  | some e => cases e <;> rfl

/-- C4: the escalation guard classifies the dry-run create outcome: a
forbidden failure yields the retryable not-allowed failure with the fixed
60-second requeue delay; an already-exists failure yields overall allow (no
error); any other error is surfaced as-is, not classified as not-allowed. -/
theorem checkEscalation_classification (w : AuthWorld) (user : String)
    (gvr : GroupVersionResource) (ns : String) (obj : Unstructured) (tr : AuthTrace) :
    (w.dryRunCreate user gvr ns obj = some .forbidden →
      (sarValidator.checkEscalation w user gvr ns obj tr).1 = some (.notAllowed 60)) ∧
    (w.dryRunCreate user gvr ns obj = some .alreadyExists →
      (sarValidator.checkEscalation w user gvr ns obj tr).1 = none) ∧
    (∀ m, w.dryRunCreate user gvr ns obj = some (.otherErr m) →
      (sarValidator.checkEscalation w user gvr ns obj tr).1
        = some (.apiError (.otherErr m))) := by
  refine ⟨fun h => ?_, fun h => ?_, fun m h => ?_⟩ <;>
    simp [sarValidator.checkEscalation, h]

def roleGvr : GroupVersionResource :=
  { group := rbacGroup, version := "v1", resource := "roles" }

/-- World whose impersonated dry-run create always fails as forbidden. -/
def forbiddenDryRunWorld : AuthWorld :=
  { sarResult := fun _ => .ok true,
    dryRunCreate := fun _ _ _ _ => some .forbidden }

/-- Witness for C4: a forbidden dry-run create yields the not-allowed failure
with the 60-second requeue. -/
theorem checkEscalation_classification_witness :
    (sarValidator.checkEscalation forbiddenDryRunWorld "u" roleGvr "ns1"
        { raw := "role" } { sars := [], dryRuns := [] }).1 = some (.notAllowed 60) :=
  (checkEscalation_classification forbiddenDryRunWorld "u" roleGvr "ns1"
    { raw := "role" } { sars := [], dryRuns := [] }).1 rfl

theorem validateSARsAux_denied (w : AuthWorld) (post : List SubjectAccessReview)
    (r0 : SubjectAccessReview) (hr0 : w.sarResult r0 = .ok false) :
    ∀ pre issued : List SubjectAccessReview, (∀ p ∈ pre, w.sarResult p = .ok true) →
      validateSARsAux w issued (pre ++ r0 :: post) = (.ok false, issued ++ (pre ++ [r0])) := by
  intro pre
  induction pre with
  | nil =>
    intro issued _
    simp [validateSARsAux, hr0]
  | cons p ps ih =>
    intro issued hpre
    have hp : w.sarResult p = .ok true := hpre p (by simp)
    have step : validateSARsAux w issued ((p :: ps) ++ r0 :: post)
        = validateSARsAux w (issued ++ [p]) (ps ++ r0 :: post) := by
      simp [validateSARsAux, hp]
    rw [step, ih (issued ++ [p]) (fun q hq => hpre q (by simp [hq]))]
    simp

/-- C7: the verb access reviews run sequentially in the given order and
short-circuit on the first denial: when the reviews split as an allowed prefix
followed by a denied review, exactly the prefix plus the denied review are
issued — no review for any later verb — and the overall result is the
not-allowed failure with the 60-second requeue delay. -/
theorem validate_sar_short_circuit (w : AuthWorld) (sa : ManifestWorkSubjectServiceAccount)
    (gvr : GroupVersionResource) (ns name : String) (obj : Unstructured)
    (pre post : List SubjectAccessReview) (r0 : SubjectAccessReview)
    (hsplit : buildSubjectAccessReviews sa.ns sa.name (sarResourceAttributes gvr ns name)
        applyVerbs = pre ++ r0 :: post)
    (hpre : ∀ p ∈ pre, w.sarResult p = .ok true)
    (hr0 : w.sarResult r0 = .ok false) :
    sarValidator.Validate w
        (some { subject := { type := ExecutorSubjectTypeServiceAccount,
                             serviceAccount := some sa } }) gvr ns name obj ApplyAction =
      (some (.notAllowed 60), { sars := pre ++ [r0], dryRuns := [] }) := by
  have hsar : validateBySubjectAccessReviews w
      (buildSubjectAccessReviews sa.ns sa.name (sarResourceAttributes gvr ns name) applyVerbs)
      = (.ok false, pre ++ [r0]) := by
    rw [hsplit]
    unfold validateBySubjectAccessReviews
    simpa using validateSARsAux_denied w post r0 hr0 pre [] hpre
  simp +decide [sarValidator.Validate, actionVerbs, hsar]

def saExec : ManifestWorkSubjectServiceAccount := { ns := "ns1", name := "sa1" }

def cmGvr : GroupVersionResource := { group := "", version := "v1", resource := "configmaps" }

/-- World that allows the "create" verb and denies every other review. -/
def denyUpdateWorld : AuthWorld :=
  { sarResult := fun r => .ok (decide (r.resourceAttributes.verb = "create")),
    dryRunCreate := fun _ _ _ _ => none }

/-- The review `buildSubjectAccessReviews` builds for one verb at the concrete
configmap input. -/
def sampleReview (verb : String) : SubjectAccessReview :=
  { resourceAttributes :=
      { group := "", resource := "configmaps", version := "v1", subresource := "",
        name := "cm1", ns := "ns1", verb := verb },
    user := username "ns1" "sa1",
    groups := saGroups "ns1" }

/-- Witness for C7: with "create" allowed and "update" denied, only the
create and update reviews are issued (never patch or get) and the result is
the not-allowed failure with the 60-second requeue. -/
theorem validate_sar_short_circuit_witness :
    sarValidator.Validate denyUpdateWorld
        (some { subject := { type := ExecutorSubjectTypeServiceAccount,
                             serviceAccount := some saExec } }) cmGvr "ns1" "cm1"
        { raw := "cm" } ApplyAction =
      (some (.notAllowed 60),
       { sars := [sampleReview "create", sampleReview "update"], dryRuns := [] }) :=
  validate_sar_short_circuit denyUpdateWorld saExec cmGvr "ns1" "cm1" { raw := "cm" }
    [sampleReview "create"] [sampleReview "patch", sampleReview "get"]
    (sampleReview "update") (by decide)
    (fun p hp => by rw [List.mem_singleton] at hp; subst hp; rfl) rfl

/-- C3: with a valid service-account executor, the impersonated dry-run create
is issued exactly when the action is Apply, the target group is the RBAC
group, the target resource kind is one of the four RBAC-defining kinds, and
every access-review verb check passed; for the Delete action, or for Apply on
any other resource kind, no dry-run create is issued regardless of the
access-review outcome. -/
theorem validate_dryrun_iff (w : AuthWorld) (sa : ManifestWorkSubjectServiceAccount)
    (gvr : GroupVersionResource) (ns name : String) (obj : Unstructured)
    (action : String) :
    (sarValidator.Validate w
        (some { subject := { type := ExecutorSubjectTypeServiceAccount,
                             serviceAccount := some sa } }) gvr ns name obj action).2.dryRuns
        ≠ [] ↔
      (action = ApplyAction ∧ gvr.group = rbacGroup ∧ gvr.resource ∈ rbacResources ∧
        (validateBySubjectAccessReviews w
          (buildSubjectAccessReviews sa.ns sa.name (sarResourceAttributes gvr ns name)
            applyVerbs)).1 = .ok true) := by
  by_cases hA : action = ApplyAction
  · subst hA
    cases houtcome : (validateBySubjectAccessReviews w
        (buildSubjectAccessReviews sa.ns sa.name (sarResourceAttributes gvr ns name)
          applyVerbs)).1 with
    | error e => simp +decide [sarValidator.Validate, actionVerbs, houtcome]
    | ok b =>
      cases b with
      | false => simp +decide [sarValidator.Validate, actionVerbs, houtcome]
      | true =>
        by_cases hg : gvr.group = rbacGroup
        · by_cases hr : gvr.resource ∈ rbacResources
          · simp +decide [sarValidator.Validate, actionVerbs, houtcome, hg, hr,
              checkEscalation_dryRuns]
          · simp +decide [sarValidator.Validate, actionVerbs, houtcome, hg, hr]
        · simp +decide [sarValidator.Validate, actionVerbs, houtcome, hg]
  · by_cases hD : action = DeleteAction
    · subst hD
      cases houtcome : (validateBySubjectAccessReviews w
          (buildSubjectAccessReviews sa.ns sa.name (sarResourceAttributes gvr ns name)
            deleteVerbs)).1 with
      | error e => simp +decide [sarValidator.Validate, actionVerbs, houtcome]
      | ok b =>
        cases b <;> simp +decide [sarValidator.Validate, actionVerbs, houtcome]
    · have hverbs : actionVerbs action = none := by simp [actionVerbs, hA, hD]
      simp [sarValidator.Validate, hverbs, hA]

end WorkVerify
